import Mathlib

/-!
Verification of the xccmeta AST core: the tag grammar parser
(`src/xccmeta_tags.cpp`), the node tree model (`src/xccmeta_node.cpp`),
the cross-unit merge engine (`src/xccmeta_parser.cpp`) and the
filter/query engine (`src/xccmeta_filter.cpp`), as shallow embeddings.
C++ `std::string` is modelled as `List Char`.
-/

namespace XccMeta

/-- C++ `std::string` is modelled as a list of characters. -/
abbrev Str := List Char

/-- The NUL character, used by the scan loop as the "no quote" sentinel. -/
def nulChar : Char := Char.ofNat 0

/-- The double-quote character `"`. -/
def dquoteChar : Char := Char.ofNat 34

/-- The single-quote character. -/
def squoteChar : Char := Char.ofNat 39

/-- The backslash character. -/
def backslashChar : Char := Char.ofNat 92

/-- The whitespace set used by `trim` in `xccmeta_tags.cpp`:
`" \t\n\r\f\v"` (`\f` is 12, `\v` is 11). -/
def isWS (c : Char) : Bool :=
  c == ' ' || c == '\t' || c == '\n' || c == '\r' ||
    c == Char.ofNat 12 || c == Char.ofNat 11

/-- `trim` from `xccmeta_tags.cpp`: drop leading whitespace
(`find_first_not_of`), then trailing whitespace (`find_last_not_of`);
an all-whitespace string becomes empty. -/
def trim (s : Str) : Str :=
  ((s.dropWhile isWS).reverse.dropWhile isWS).reverse

/-- `xccmeta::tag`: a parsed metadata annotation, a name together with an
ordered list of argument strings (`xccmeta_tags.hpp`). -/
structure Tag where
  name : Str
  args : List Str
deriving DecidableEq

/-- The quote-tracking kernel state of the argument scan loop in
`tag::parse`: `in_string`, `quote_char`, and the previous raw character of
`args_str` (`none` at position 0). -/
structure KSt where
  inStr : Bool
  quote : Char
  prev : Option Char
deriving DecidableEq

/-- The escape test of the scan loop: `i == 0 || args_str[i-1] != '\\'`. -/
def escOk : Option Char → Bool
  | none => true
  | some p => p != backslashChar

/-- `c == '"' || c == '\''` from the scan loop. -/
def isQuoteChar (c : Char) : Bool := c == dquoteChar || c == squoteChar

/-- One iteration of the quote-handling part of the scan loop of
`tag::parse`: a quote character not preceded by a backslash opens a quoted
region when outside one, and closes it when it equals the opening quote. -/
def kstep (k : KSt) (c : Char) : KSt :=
  if isQuoteChar c && escOk k.prev then
    if !k.inStr then ⟨true, c, some c⟩
    else if c == k.quote then ⟨false, nulChar, some c⟩
    else ⟨k.inStr, k.quote, some c⟩
  else ⟨k.inStr, k.quote, some c⟩

/-- Whether `c` acts as a splitting comma at kernel state `k`: the source
checks `c == ',' && !in_string` after the quote update (a comma is never a
quote character, so using the updated `in_string` is equivalent). -/
def isSplit (k : KSt) (c : Char) : Bool := c == ',' && !(kstep k c).inStr

/-- Kernel state at the start of the scan: not in a string, `quote_char`
is NUL, no previous character. -/
def kInit : KSt := ⟨false, nulChar, none⟩

/-- Run the quote-tracking kernel over a string. -/
def kscan (k : KSt) (l : Str) : KSt := l.foldl kstep k

/-- Whether any splitting comma occurs while scanning `l` from state `k`. -/
def anySplit : KSt → Str → Bool
  | _, [] => false
  | k, c :: rest => isSplit k c || anySplit (kstep k c) rest

/-- Full state of the scan loop: the kernel, the raw slice accumulated
since the last split (`args_str.substr(start, ...)`), and the arguments
stored so far. -/
structure ScanSt where
  k : KSt
  cur : Str
  acc : List Str

/-- One iteration of the scan loop of `tag::parse`: on a splitting comma
the current slice is trimmed and stored and a new slice starts after the
comma; any other character extends the current slice. -/
def step (st : ScanSt) (c : Char) : ScanSt :=
  if isSplit st.k c then ⟨kstep st.k c, [], st.acc ++ [trim st.cur]⟩
  else ⟨kstep st.k c, st.cur ++ [c], st.acc⟩

/-- Scan state at `start = 0`. -/
def initSt : ScanSt := ⟨kInit, [], []⟩

/-- The whole scan loop of `tag::parse` over `args_str`. -/
def scanArgs (l : Str) : ScanSt := l.foldl step initSt

/-- `to_parse.find('(')` combined with the two `substr` calls of
`tag::parse`: `none` when there is no `'('`; otherwise the characters
before the first `'('` and the characters after it. -/
def breakAtParen : Str → Option (Str × Str)
  | [] => none
  | c :: rest =>
    if c == '(' then some ([], rest)
    else match breakAtParen rest with
      | none => none
      | some (b, a) => some (c :: b, a)

/-- `tag::parse` (`xccmeta_tags.cpp`). With no `'('` the whole trimmed
input is the name. Otherwise the name is the trimmed prefix before the
first `'('` and `args_str` is `substr(paren_pos + 1, length - paren_pos - 2)`;
in `size_t` arithmetic this is exactly the text after the `'('` with its
last character removed (when the `'('` is the final character the length
underflows to `npos` and the remainder is empty, which `dropLast` also
yields). The scan loop splits `args_str` on unquoted commas, and the final
slice is stored iff `start < args_str.length()`, i.e. iff the raw slice is
non-empty. -/
def Tag.parse (to_parse : Str) : Tag :=
  match breakAtParen to_parse with
  | none => ⟨trim to_parse, []⟩
  | some (before, rest) =>
    let st := scanArgs rest.dropLast
    ⟨trim before, st.acc ++ (if st.cur = [] then [] else [trim st.cur])⟩

/-- `tag::get_args_combined`: the arguments joined by `", "`. -/
def joinCommaSpace : List Str → Str
  | [] => []
  | [a] => a
  | a :: rest => a ++ [',', ' '] ++ joinCommaSpace rest

/-- `tag::get_full`: `name + "(" + get_args_combined() + ")"`. -/
def Tag.get_full (t : Tag) : Str :=
  t.name ++ ['('] ++ joinCommaSpace t.args ++ [')']

/-- An argument element is scan-clean: scanned standalone from the initial
kernel state, it triggers no splitting comma and leaves the quote state
closed. Elements with no comma at all and balanced quoting satisfy this. -/
def elemOk (e : Str) : Bool := !anySplit kInit e && !(kscan kInit e).inStr

/-- `node::kind` (`xccmeta_node.hpp`): the closed set of declaration
kinds. -/
inductive Kind where
  | unknown
  | translation_unit
  | namespace_decl
  | namespace_alias
  | using_directive
  | using_declaration
  | class_decl
  | struct_decl
  | union_decl
  | enum_decl
  | enum_constant_decl
  | typedef_decl
  | type_alias_decl
  | field_decl
  | method_decl
  | constructor_decl
  | destructor_decl
  | conversion_decl
  | function_decl
  | function_template
  | parameter_decl
  | variable_decl
  | class_template
  | template_type_parameter
  | template_non_type_parameter
  | template_template_parameter
  | friend_decl
  | base_specifier
  | linkage_spec
  | static_assert_decl
deriving DecidableEq

/-- `xccmeta::access_specifier`. -/
inductive AccessSpecifier where
  | invalid
  | public_
  | protected_
  | private_
deriving DecidableEq

/-- `xccmeta::storage_class`. -/
inductive StorageClass where
  | none_
  | extern_
  | static_
  | register_
  | auto_
  | thread_local_
deriving DecidableEq

/-- `xccmeta::source_location` (`xccmeta_source.hpp`). -/
structure SourceLoc where
  file : Str := []
  line : Nat := 0
  column : Nat := 0
  offset : Nat := 0
deriving DecidableEq

/-- `xccmeta::source_range`: start and end locations (`end` is spelled
`stop` because `end` is reserved in Lean). -/
structure SourceRange where
  start : SourceLoc := {}
  stop : SourceLoc := {}
deriving DecidableEq

/-- `xccmeta::type_info` (`xccmeta_type_info.hpp`): type descriptor
copied wholesale by the merge engine's deep clone. -/
structure TypeInfo where
  spelling : Str := []
  canonical : Str := []
  is_const : Bool := false
  is_volatile : Bool := false
  is_restrict : Bool := false
  is_pointer : Bool := false
  is_reference : Bool := false
  is_lvalue_reference : Bool := false
  is_rvalue_reference : Bool := false
  is_array : Bool := false
  is_function_pointer : Bool := false
  pointee_type : Str := []
  array_element_type : Str := []
  array_size : Int := 0
deriving DecidableEq

/-- The value fields of `xccmeta::node` (`xccmeta_node.hpp`), with the
default member initializers of the class; the tree structure (children,
parent back-reference) is kept separate. -/
structure NData where
  kind : Kind := Kind.unknown
  usr : Str := []
  name : Str := []
  qualified_name : Str := []
  display_name : Str := []
  mangled_name : Str := []
  location : SourceLoc := {}
  extent : SourceRange := {}
  type : TypeInfo := {}
  return_type : TypeInfo := {}
  access : AccessSpecifier := AccessSpecifier.invalid
  storage_class : StorageClass := StorageClass.none_
  is_definition : Bool := false
  is_virtual : Bool := false
  is_pure_virtual : Bool := false
  is_override : Bool := false
  is_final : Bool := false
  is_static : Bool := false
  is_const_method : Bool := false
  is_inline : Bool := false
  is_explicit : Bool := false
  is_constexpr : Bool := false
  is_noexcept : Bool := false
  is_deleted : Bool := false
  is_defaulted : Bool := false
  is_anonymous : Bool := false
  is_scoped_enum : Bool := false
  is_template : Bool := false
  is_template_spec : Bool := false
  is_variadic : Bool := false
  is_bitfield : Bool := false
  is_virtual_base : Bool := false
  has_default_value : Bool := false
  bitfield_width : Int := 0
  enum_value : Int := 0
  default_value : Str := []
  underlying_type : Str := []
  comment : Str := []
  brief_comment : Str := []
  tags : List Tag := []
deriving DecidableEq

/-- `node::create(k)` followed by no setter calls: a node value with kind
`k` and all other fields at their defaults. -/
def defaultNData (k : Kind) : NData := { kind := k }

/-- A fully built (non-null) node tree: the node's value fields and its
ordered owned children. The parent back-reference is not part of the
value; it is modelled separately where object identity matters. -/
inductive Node where
  | mk (data : NData) (children : List Node)

/-- The value fields of a node. -/
def Node.data : Node → NData
  | .mk d _ => d

/-- The ordered children of a node (`node::get_children`). -/
def Node.children : Node → List Node
  | .mk _ c => c

/-- `node::get_usr`. -/
def Node.usr (n : Node) : Str := n.data.usr

/-- `node::has_tag`: some tag in the node's tag list has this name. -/
def Node.has_tag (n : Node) (name : Str) : Bool :=
  n.data.tags.any (fun t => t.name = name)

/-- `node::has_tags`: some name in the list is a tag of the node ("returns
true if any of the tags are present"). -/
def Node.has_tags (n : Node) (names : List Str) : Bool :=
  names.any (fun name => n.has_tag name)

/-- `node::get_children_by_tags`: the direct children that have at least
one of the given tag names, in child order (the source `break` only
prevents pushing the same child twice, so this is a filter). -/
def Node.get_children_by_tags (n : Node) (tag_names : List Str) : List Node :=
  n.children.filter (fun child => tag_names.any (fun name => child.has_tag name))

/-- `node::get_children_without_tags`: the direct children for which
`has_tags` fails, in child order. -/
def Node.get_children_without_tags (n : Node) (tag_names : List Str) : List Node :=
  n.children.filter (fun child => !child.has_tags tag_names)

/-- The kind switch of `node::is_type_decl`
(class/struct/union/enum/typedef/type-alias). -/
def isTypeDeclKind : Kind → Bool
  | .class_decl => true
  | .struct_decl => true
  | .union_decl => true
  | .enum_decl => true
  | .typedef_decl => true
  | .type_alias_decl => true
  | _ => false

mutual

/-- `parser_impl::clone_node` on a non-null node: create a node of the
same kind, copy every value field with the setters, clone each tag, then
recursively clone and attach every child (a clone of a non-null child is
never null, so the null guard before `add_child` never skips). -/
def cloneNode : Node → Node
  | .mk d cs =>
    .mk { kind := d.kind, usr := d.usr, name := d.name,
          qualified_name := d.qualified_name, display_name := d.display_name,
          mangled_name := d.mangled_name, location := d.location,
          extent := d.extent, type := d.type, return_type := d.return_type,
          access := d.access, storage_class := d.storage_class,
          is_definition := d.is_definition, is_virtual := d.is_virtual,
          is_pure_virtual := d.is_pure_virtual, is_override := d.is_override,
          is_final := d.is_final, is_static := d.is_static,
          is_const_method := d.is_const_method, is_inline := d.is_inline,
          is_explicit := d.is_explicit, is_constexpr := d.is_constexpr,
          is_noexcept := d.is_noexcept, is_deleted := d.is_deleted,
          is_defaulted := d.is_defaulted, is_anonymous := d.is_anonymous,
          is_scoped_enum := d.is_scoped_enum, is_template := d.is_template,
          is_template_spec := d.is_template_spec, is_variadic := d.is_variadic,
          is_bitfield := d.is_bitfield, is_virtual_base := d.is_virtual_base,
          has_default_value := d.has_default_value,
          bitfield_width := d.bitfield_width, enum_value := d.enum_value,
          default_value := d.default_value, underlying_type := d.underlying_type,
          comment := d.comment, brief_comment := d.brief_comment,
          tags := d.tags }
        (cloneList cs)

/-- Clone of a child list, preserving order. -/
def cloneList : List Node → List Node
  | [] => []
  | c :: cs => cloneNode c :: cloneList cs

end

mutual

/-- The key set of the `usr_map` built by `collect_usrs` in
`parser::merge`: every non-empty Usr reachable from the node (the node
itself included). -/
def usrsOf : Node → List Str
  | .mk d cs => (if d.usr = [] then [] else [d.usr]) ++ usrsOfL cs

/-- `collect_usrs` over a child list. -/
def usrsOfL : List Node → List Str
  | [] => []
  | c :: cs => usrsOf c ++ usrsOfL cs

end

mutual

/-- The number of nodes with Usr `u` reachable from the node (the node
itself included). -/
def usrCount (u : Str) : Node → Nat
  | .mk d cs => (if d.usr = u then 1 else 0) + usrCountL u cs

/-- `usrCount` summed over a child list. -/
def usrCountL (u : Str) : List Node → Nat
  | [] => 0
  | c :: cs => usrCount u c + usrCountL u cs

end

/-- The decision of the `b`-children loop of `parser::merge`: a direct
child of `b` is cloned into the merged tree iff its Usr is empty or its
Usr is absent from the `usr_map` collected over all of `a`. (The
`added_usrs` set the source also maintains is never read, so two
`b`-children with the same fresh Usr are both kept.) -/
def keepB (a : Node) (c : Node) : Bool :=
  if c.data.usr = [] then true
  else if c.data.usr ∈ usrsOf a then false
  else true

/-- The name `"merged"` given to the merged root. -/
def mergedName : Str := ['m', 'e', 'r', 'g', 'e', 'd']

/-- `parser::merge` on two non-null trees: a fresh `translation_unit` root
named `"merged"`, the clones of all direct children of `a`, then the
clones of the direct children of `b` kept by `keepB`, in order. -/
def merge (a b : Node) : Node :=
  .mk { defaultNData Kind.translation_unit with name := mergedName }
    (cloneList a.children ++ cloneList (b.children.filter (keepB a)))

/-- `parser::merge` including the null short-circuits:
`if (!a) return b; if (!b) return a;`. -/
def mergeOpt (a b : Option Node) : Option Node :=
  match a with
  | none => b
  | some a' =>
    match b with
    | none => some a'
    | some b' => some (merge a' b')

/-- `filter::config::node_inclusion` (`exclude` / `include` /
`include_recursively`; the middle constructor carries a trailing
underscore because `include` is reserved in Lean). -/
inductive NodeInclusion where
  | exclude
  | include_
  | include_recursively
deriving DecidableEq

/-- `filter::config` (`xccmeta_filter.hpp`). The two inclusion enums are
carried but never consulted by `matches_config`. -/
structure Config where
  allowed_kinds : List Kind := []
  grab_tag_names : List Str := []
  avoid_tag_names : List Str := []
  child_node_inclusion : NodeInclusion := NodeInclusion.exclude
  parent_node_inclusion : NodeInclusion := NodeInclusion.exclude

/-- The view of a node that the filter engine reads: its kind, Usr and tag
list, plus `id`, which stands for the `shared_ptr` object identity (two
handles to distinct node objects have distinct `id`s even when every field
agrees). A `node_ptr` is `Option FNode`, with `none` as the null handle. -/
structure FNode where
  id : Nat
  kind : Kind
  usr : Str
  tags : List Tag

/-- `node::has_tag` as read through a filter handle. -/
def FNode.has_tag (n : FNode) (name : Str) : Bool :=
  n.tags.any (fun t => t.name = name)

/-- `filter::matches_config` on a non-null node, translated branch by
branch: the kind allow-list check (skipped when the list is empty), then
for a tagged node the deny-list scan followed by the grab-list scan, and
for an untagged node rejection iff the grab-list is non-empty. -/
def matchesConfig (cfg : Config) (ty : FNode) : Bool :=
  if cfg.allowed_kinds ≠ [] ∧ ty.kind ∉ cfg.allowed_kinds then false
  else
    if ty.tags ≠ [] then
      if cfg.avoid_tag_names.any (fun a => ty.has_tag a) then false
      else if cfg.grab_tag_names ≠ [] ∧
          !cfg.grab_tag_names.any (fun g => ty.has_tag g) then false
      else true
    else
      if cfg.grab_tag_names ≠ [] then false
      else true

/-- `filter::matches_config` including its null guard. -/
def matchesConfigOpt (cfg : Config) (ty : Option FNode) : Bool :=
  match ty with
  | none => false
  | some t => matchesConfig cfg t

/-- `filter::is_valid_type`: non-null, a type declaration by kind, and
matching the configuration. -/
def isValidType (cfg : Config) (ty : Option FNode) : Bool :=
  match ty with
  | none => false
  | some t => if !isTypeDeclKind t.kind then false else matchesConfig cfg t

/-- The filter state: its held nodes in insertion order and its
configuration. The source vector never holds a null handle (only `add`
appends, and it rejects null first), so the elements are `FNode`. -/
structure Filter where
  types : List FNode
  cfg : Config

/-- `filter::find_by_usr` viewed as a membership test: whether some held
node has this Usr (`it != types_.end()`). -/
def Filter.memUsr (f : Filter) (usr : Str) : Bool :=
  f.types.any (fun n => n.usr = usr)

/-- `filter::contains`: false for the null handle, otherwise a Usr-equality
scan. -/
def Filter.contains (f : Filter) (ty : Option FNode) : Bool :=
  match ty with
  | none => false
  | some t => f.memUsr t.usr

/-- `filter::add`: reject the null handle, nodes failing `is_valid_type`,
and Usr-duplicates; otherwise append and report success. -/
def Filter.add (f : Filter) (ty : Option FNode) : Filter × Bool :=
  match ty with
  | none => (f, false)
  | some t =>
    if !isValidType f.cfg (some t) then (f, false)
    else if f.contains (some t) then (f, false)
    else ({ f with types := f.types ++ [t] }, true)

/-- Erase the first element with the given Usr; report whether one was
found (`find_by_usr` + `erase`). -/
def eraseFirstUsr : List FNode → Str → List FNode × Bool
  | [], _ => ([], false)
  | n :: rest, u =>
    if n.usr = u then (rest, true)
    else
      let r := eraseFirstUsr rest u
      (n :: r.1, r.2)

/-- `filter::remove`: false for the null handle; otherwise erase the first
held node whose Usr equals the argument's Usr. -/
def Filter.remove (f : Filter) (ty : Option FNode) : Filter × Bool :=
  match ty with
  | none => (f, false)
  | some t =>
    let r := eraseFirstUsr f.types t.usr
    ({ f with types := r.1 }, r.2)

/-- `filter::size`. -/
def Filter.size (f : Filter) : Nat := f.types.length

/-- The mutable fields of a heap node that `add_child` / `remove_child`
touch: the parent back-reference (`weak_ptr`, `none` when unset) and the
ordered children, both as indices into the store. The kind records the
factory argument. -/
structure HNode where
  kind : Kind := Kind.unknown
  parent : Option Nat := none
  children : List Nat := []

/-- The object store: index `i` is the node object `shared_ptr` number `i`
points to. A fresh factory-created node has no parent and no children. -/
abbrev Store := List HNode

/-- Erase the first occurrence of `x` (`std::find` + `erase`, comparing
`shared_ptr` identity). -/
def eraseFirst : List Nat → Nat → List Nat
  | [], _ => []
  | y :: ys, x => if y = x then ys else y :: eraseFirst ys x

/-- `child->parent_ = pv`: overwrite node `cid`'s parent back-reference.
(An out-of-range index leaves the store unchanged; in the source all
handles are live.) -/
def setParent (s : Store) (cid : Nat) (pv : Option Nat) : Store :=
  match s[cid]? with
  | none => s
  | some cn => s.set cid { cn with parent := pv }

/-- `children_.push_back(child)` on node `p`. -/
def appendChild (s : Store) (p cid : Nat) : Store :=
  match s[p]? with
  | none => s
  | some pn => s.set p { pn with children := pn.children ++ [cid] }

/-- `children_.erase(it)` on node `p`: erase the first occurrence of
`cid`, reading `p`'s node in the current store. -/
def eraseChild (s : Store) (p cid : Nat) : Store :=
  match s[p]? with
  | none => s
  | some pn => s.set p { pn with children := eraseFirst pn.children cid }

/-- `node::add_child(child)` called on node `p`: a no-op for the null
handle; otherwise set the child's parent back-reference to `p`, then
append the child to `p`'s children. -/
def addChild (s : Store) (p : Nat) (c : Option Nat) : Store :=
  match c with
  | none => s
  | some cid => appendChild (setParent s cid (some p)) p cid

/-- `node::remove_child(child)` called on node `p`: find the first
occurrence of the handle in `p`'s children by identity (the null handle
is never found since children are never null); if found, clear that
child's parent back-reference, then erase the occurrence. -/
def removeChild (s : Store) (p : Nat) (c : Option Nat) : Store :=
  match c with
  | none => s
  | some cid =>
    match s[p]? with
    | none => s
    | some pn =>
      if cid ∈ pn.children then eraseChild (setParent s cid none) p cid
      else s

/-- A tree-mutation operation: `add_child` or `remove_child`, with the
receiver node and the argument handle. -/
inductive Op where
  | add (p : Nat) (c : Option Nat)
  | rem (p : Nat) (c : Option Nat)

/-- Apply one operation. -/
def applyOp (s : Store) : Op → Store
  | .add p c => addChild s p c
  | .rem p c => removeChild s p c

/-- Apply a sequence of operations in order. -/
def applyOps (s : Store) (ops : List Op) : Store :=
  ops.foldl applyOp s

/-- How many times node `i` occurs in children lists across the whole
store (counting multiplicity). -/
def occ (s : Store) (i : Nat) : Nat :=
  (s.map (fun n => n.children.count i)).sum

/-- The normal construction discipline: every `add_child` attaches a node
that is not currently in any children list (factory-fresh, or detached by
a prior `remove_child`). -/
def validSeq (s : Store) : List Op → Bool
  | [] => true
  | op :: rest =>
    (match op with
     | .add _ (some c) => occ s c = 0
     | _ => true) && validSeq (applyOp s op) rest

/-- Two scanner kernel states are equivalent when they agree on
`in_string`, agree on `quote_char` whenever inside a string (outside one
the quote is never read), and agree on whether the previous character
blocks a quote (`escOk`). Scans from equivalent states split at the same
positions. -/
def KEquiv (k1 k2 : KSt) : Prop :=
  k1.inStr = k2.inStr ∧
  (k1.inStr = true → k1.quote = k2.quote) ∧
  escOk k1.prev = escOk k2.prev

/-- The specification's reading of `matches_config` (claim C7, specified
independently of the code): the kind is allowed whenever the allow-list is
non-empty; a tagged node has no tag named in the deny-list and, when the
grab-list is non-empty, some tag named in it; an untagged node passes iff
the grab-list is empty. -/
def matchesConfigSpec (cfg : Config) (ty : FNode) : Prop :=
  (cfg.allowed_kinds ≠ [] → ty.kind ∈ cfg.allowed_kinds) ∧
  (ty.tags ≠ [] →
    (∀ t ∈ ty.tags, t.name ∉ cfg.avoid_tag_names) ∧
    (cfg.grab_tag_names ≠ [] → ∃ t ∈ ty.tags, t.name ∈ cfg.grab_tag_names)) ∧
  (ty.tags = [] → cfg.grab_tag_names = [])

/-!
### Helper lemmas about `trim`
-/

theorem dropWhile_ws_append {w : Str} (s : Str) (hw : ∀ c ∈ w, isWS c = true) :
    (w ++ s).dropWhile isWS = s.dropWhile isWS := by
  induction w with
  | nil => rfl
  | cons c cs ih =>
    rw [List.cons_append, List.dropWhile_cons, hw c (by simp)]
    simp only [if_true]
    exact ih fun x hx => hw x (by simp [hx])

theorem trim_ws_append {w : Str} (s : Str) (hw : ∀ c ∈ w, isWS c = true) :
    trim (w ++ s) = trim s := by
  unfold trim
  rw [dropWhile_ws_append s hw]

/-!
### Helper lemmas about the argument scanner
-/

theorem foldl_nosplit : ∀ (l : Str) (st : ScanSt),
    anySplit st.k l = false →
    l.foldl step st = ⟨kscan st.k l, st.cur ++ l, st.acc⟩ := by
  intro l
  induction l with
  | nil => intro st _; simp [kscan]
  | cons c rest ih =>
    intro st h
    have h' : isSplit st.k c = false ∧ anySplit (kstep st.k c) rest = false := by
      have := h
      unfold anySplit at this
      exact ⟨by simpa using (Bool.or_eq_false_iff.mp this).1,
             by simpa using (Bool.or_eq_false_iff.mp this).2⟩
    have hstep : step st c = ⟨kstep st.k c, st.cur ++ [c], st.acc⟩ := by
      unfold step
      rw [h'.1]
      simp
    show rest.foldl step (step st c) = _
    rw [hstep, ih _ (by simpa using h'.2)]
    simp [kscan]

theorem kscan_nil (k : KSt) : kscan k [] = k := rfl

theorem kscan_cons (k : KSt) (c : Char) (rest : Str) :
    kscan k (c :: rest) = kscan (kstep k c) rest := rfl

theorem kstep_sim {k1 k2 : KSt} (c : Char) (h : KEquiv k1 k2) :
    KEquiv (kstep k1 c) (kstep k2 c) ∧ isSplit k1 c = isSplit k2 c := by
  obtain ⟨h1, h2, h3⟩ := h
  have key : KEquiv (kstep k1 c) (kstep k2 c) := by
    unfold kstep
    by_cases hq : (isQuoteChar c && escOk k1.prev) = true
    · have hq2 : (isQuoteChar c && escOk k2.prev) = true := by rw [← h3]; exact hq
      rw [if_pos hq, if_pos hq2]
      cases hs : k1.inStr with
      | false =>
        have hs2 : k2.inStr = false := by rw [← h1]; exact hs
        simp only [hs, hs2]
        exact ⟨rfl, fun _ => rfl, rfl⟩
      | true =>
        have hs2 : k2.inStr = true := by rw [← h1]; exact hs
        have hqt : k1.quote = k2.quote := h2 hs
        simp only [hs, hs2, hqt]
        exact ⟨rfl, fun _ => rfl, rfl⟩
    · have hq2 : ¬ (isQuoteChar c && escOk k2.prev) = true := by rw [← h3]; exact hq
      rw [if_neg hq, if_neg hq2]
      exact ⟨h1, fun hs => h2 hs, rfl⟩
  refine ⟨key, ?_⟩
  unfold isSplit
  rw [key.1]

theorem ksim : ∀ (e : Str) {k1 k2 : KSt}, KEquiv k1 k2 →
    KEquiv (kscan k1 e) (kscan k2 e) ∧ anySplit k1 e = anySplit k2 e := by
  intro e
  induction e with
  | nil => intro k1 k2 h; exact ⟨h, rfl⟩
  | cons c rest ih =>
    intro k1 k2 h
    obtain ⟨hstep, hsplit⟩ := kstep_sim c h
    obtain ⟨ha, hb⟩ := ih hstep
    refine ⟨by rwa [kscan_cons, kscan_cons], ?_⟩
    unfold anySplit
    rw [hsplit, hb]

theorem elem_scan (e : Str) (he : elemOk e = true) (st : ScanSt)
    (h1 : st.k.inStr = false) (h2 : escOk st.k.prev = true) :
    e.foldl step st = ⟨kscan st.k e, st.cur ++ e, st.acc⟩ ∧
      (kscan st.k e).inStr = false := by
  have hequiv : KEquiv kInit st.k := by
    refine ⟨by rw [h1]; rfl, fun hc => absurd hc (by simp [kInit]), ?_⟩
    rw [h2]; rfl
  obtain ⟨hk, hsp⟩ := ksim e hequiv
  unfold elemOk at he
  rw [Bool.and_eq_true] at he
  have he1 : anySplit kInit e = false := by simpa using he.1
  have he2 : (kscan kInit e).inStr = false := by simpa using he.2
  refine ⟨foldl_nosplit e st (by rw [← hsp]; exact he1), ?_⟩
  rw [← hk.1]
  exact he2

theorem scan_join : ∀ (a : List Str) (hne : a ≠ []) (st : ScanSt),
    (∀ e ∈ a, elemOk e = true) →
    st.k.inStr = false → escOk st.k.prev = true →
    (∀ c ∈ st.cur, isWS c = true) →
    ∃ k' : KSt,
      (joinCommaSpace a).foldl step st =
        ⟨k', (if a.length = 1 then st.cur else [' ']) ++ a.getLast hne,
          st.acc ++ (a.dropLast).map trim⟩ := by
  intro a
  induction a with
  | nil => intro hne; exact absurd rfl hne
  | cons e rest ih =>
    intro _ st hok h1 h2 hws
    cases rest with
    | nil =>
      obtain ⟨hfold, _⟩ := elem_scan e (hok e (by simp)) st h1 h2
      refine ⟨kscan st.k e, ?_⟩
      rw [show joinCommaSpace [e] = e from rfl, hfold]
      simp
    | cons e2 rest2 =>
      obtain ⟨hfold1, hstr1⟩ := elem_scan e (hok e (by simp)) st h1 h2
      have hqc : isQuoteChar ',' = false := by decide
      have hqs : isQuoteChar ' ' = false := by decide
      have hsplit1 : isSplit (kscan st.k e) ',' = true := by
        unfold isSplit kstep
        rw [if_neg (by simp [hqc])]
        simp [hstr1]
      have hcomma : step ⟨kscan st.k e, st.cur ++ e, st.acc⟩ ',' =
          ⟨⟨false, (kscan st.k e).quote, some ','⟩, [], st.acc ++ [trim e]⟩ := by
        unfold step
        rw [if_pos hsplit1]
        unfold kstep
        rw [if_neg (by simp [hqc])]
        rw [show trim (st.cur ++ e) = trim e from trim_ws_append e hws, hstr1]
      have hsplit2 :
          isSplit (⟨false, (kscan st.k e).quote, some ','⟩ : KSt) ' ' = false := by
        unfold isSplit
        rw [show (' ' == ',') = false from by decide]
        rfl
      have hspace :
          step ⟨⟨false, (kscan st.k e).quote, some ','⟩, [], st.acc ++ [trim e]⟩ ' ' =
          ⟨⟨false, (kscan st.k e).quote, some ' '⟩, [' '], st.acc ++ [trim e]⟩ := by
        unfold step
        rw [if_neg (by simp [hsplit2])]
        unfold kstep
        rw [if_neg (by simp [hqs])]
        rfl
      have hmid : (joinCommaSpace (e :: e2 :: rest2)).foldl step st =
          (joinCommaSpace (e2 :: rest2)).foldl step
            ⟨⟨false, (kscan st.k e).quote, some ' '⟩, [' '], st.acc ++ [trim e]⟩ := by
        rw [show joinCommaSpace (e :: e2 :: rest2) =
              e ++ [',', ' '] ++ joinCommaSpace (e2 :: rest2) from rfl]
        rw [List.foldl_append, List.foldl_append, hfold1]
        rw [show List.foldl step (⟨kscan st.k e, st.cur ++ e, st.acc⟩ : ScanSt)
              ([',', ' '] : Str) =
              step (step ⟨kscan st.k e, st.cur ++ e, st.acc⟩ ',') ' ' from rfl]
        rw [hcomma, hspace]
      obtain ⟨k', hrec⟩ := ih (by simp)
        ⟨⟨false, (kscan st.k e).quote, some ' '⟩, [' '], st.acc ++ [trim e]⟩
        (fun x hx => hok x (by simp [hx])) rfl rfl
        (by intro c hc; simp only [List.mem_singleton] at hc; rw [hc]; decide)
      refine ⟨k', ?_⟩
      rw [hmid, hrec]
      simp only [ScanSt.mk.injEq]
      refine ⟨trivial, ?_, ?_⟩
      · rw [ite_self, if_neg (show ¬(e :: e2 :: rest2).length = 1 by simp),
          List.getLast_cons_cons]
      · simp [List.dropLast_cons₂, List.append_assoc]

/-!
### Helper lemmas about `breakAtParen`
-/

theorem breakAtParen_fst : ∀ s : Str,
    (match breakAtParen s with
     | none => s
     | some (b, _) => b) = s.takeWhile (fun c => !(c == '(')) := by
  intro s
  induction s with
  | nil => rfl
  | cons c rest ih =>
    by_cases hc : c = '('
    · subst hc
      simp [breakAtParen, List.takeWhile]
    · unfold breakAtParen
      rw [if_neg (by simp [hc])]
      cases hb : breakAtParen rest with
      | none =>
        rw [hb] at ih
        simp only [List.takeWhile_cons]
        rw [show ((!(c == '(')) = true) from by simp [hc]]
        simpa using congrArg (c :: ·) ih
      | some p =>
        obtain ⟨b, a⟩ := p
        rw [hb] at ih
        simp only [List.takeWhile_cons]
        rw [show ((!(c == '(')) = true) from by simp [hc]]
        simpa using congrArg (c :: ·) ih

theorem breakAtParen_append (rest : Str) : ∀ n : Str, '(' ∉ n →
    breakAtParen (n ++ '(' :: rest) = some (n, rest) := by
  intro n
  induction n with
  | nil => intro _; simp [breakAtParen]
  | cons c cs ih =>
    intro h
    have hc : c ≠ '(' := fun hc => h (by simp [hc])
    have ih' := ih fun hm => h (by simp [hm])
    rw [List.cons_append]
    simp only [breakAtParen, ih']
    simp [hc]

/-- Claim C5: for every input string, including malformed ones,
`tag::parse` terminates and returns a Tag (it is a total function of the
input); the name is always the trimmed prefix of the input before the
first opening parenthesis (the whole trimmed input when there is none) —
best-effort name extraction, with no failure path. -/
theorem tag_parse_total_name (s : Str) :
    (Tag.parse s).name = trim (s.takeWhile (fun c => !(c == '('))) := by
  have h := breakAtParen_fst s
  unfold Tag.parse
  cases hb : breakAtParen s with
  | none =>
    rw [hb] at h
    simpa using congrArg trim h
  | some p =>
    obtain ⟨b, a⟩ := p
    rw [hb] at h
    simpa using congrArg trim h

theorem parse_break {s b r : Str} (h : breakAtParen s = some (b, r)) :
    Tag.parse s = ⟨trim b,
      (scanArgs r.dropLast).acc ++
        (if (scanArgs r.dropLast).cur = [] then []
         else [trim (scanArgs r.dropLast).cur])⟩ := by
  unfold Tag.parse
  rw [h]

/-- Claim C2 counterexample: with name `"f"` and argument list `[""]`
(no parentheses in the name, no unescaped comma in the element), the
claim asserts the parse of the surface form yields the arguments `[""]`
element-wise trimmed; but the surface form is `"f()"`, whose parse yields
zero arguments. -/
theorem tag_round_trip_counterexample :
    (Tag.parse (Tag.get_full ⟨['f'], [[]]⟩)).args ≠ List.map trim [([] : Str)] := by
  decide

/-- Claim C2 (amended): the round-trip holds for every name `n` with no
`'('` that carries no surrounding whitespace, and every argument list `a`
other than the single-empty-element list `[""]` whose elements are
scan-clean (no splitting comma is triggered inside an element and each
element leaves quoting balanced): parsing the surface form built by
`get_full` yields exactly the name `n` and the elements of `a`
whitespace-trimmed. -/
theorem tag_round_trip (n : Str) (a : List Str)
    (hn1 : '(' ∉ n) (hn2 : trim n = n)
    (ha : ∀ e ∈ a, elemOk e = true) (hne : a ≠ [[]]) :
    Tag.parse (Tag.get_full ⟨n, a⟩) = ⟨n, a.map trim⟩ := by
  have hb : breakAtParen (Tag.get_full ⟨n, a⟩) =
      some (n, joinCommaSpace a ++ [')']) := by
    rw [show Tag.get_full ⟨n, a⟩ = n ++ '(' :: (joinCommaSpace a ++ [')'])
          from by simp [Tag.get_full]]
    exact breakAtParen_append _ n hn1
  rw [parse_break hb, List.dropLast_concat]
  cases a with
  | nil => simp [joinCommaSpace, scanArgs, initSt, hn2]
  | cons e rest =>
    obtain ⟨k', hscan⟩ := scan_join (e :: rest) (by simp) initSt ha rfl rfl
      (by intro c hc; simp [initSt] at hc)
    rw [show scanArgs (joinCommaSpace (e :: rest)) =
          (joinCommaSpace (e :: rest)).foldl step initSt from rfl, hscan]
    cases rest with
    | nil =>
      have he : e ≠ [] := fun h => hne (by rw [h])
      simp [initSt, he, hn2]
    | cons e2 rest2 =>
      have hg := List.getLast_cons_cons e e2 rest2
      have hws1 : ∀ c ∈ ([' '] : Str), isWS c = true := by
        intro c hc
        simp only [List.mem_singleton] at hc
        rw [hc]
        decide
      have hsplit : (e :: e2 :: rest2) =
          (e :: e2 :: rest2).dropLast ++
            [(e :: e2 :: rest2).getLast (by simp)] :=
        (List.dropLast_append_getLast (by simp)).symm
      have hmap : (e :: e2 :: rest2).map trim =
          ((e :: e2 :: rest2).dropLast).map trim ++
            [trim ((e :: e2 :: rest2).getLast (by simp))] := by
        conv_lhs => rw [hsplit]
        rw [List.map_append]
        rfl
      rw [if_neg (show ¬(e :: e2 :: rest2).length = 1 by simp)]
      rw [if_neg (show ¬(([' '] : Str) ++ (e :: e2 :: rest2).getLast (by simp) = [])
            by simp)]
      rw [show trim ([' '] ++ (e :: e2 :: rest2).getLast (by simp)) =
            trim ((e :: e2 :: rest2).getLast (by simp)) from trim_ws_append _ hws1]
      rw [hn2, hmap]
      simp [initSt]

/-- Claim C2 witness: a concrete round trip, name `"v"` with arguments
`["0", "100"]`. -/
theorem tag_round_trip_witness :
    Tag.parse (Tag.get_full ⟨['v'], [['0'], ['1', '0', '0']]⟩) =
      ⟨['v'], [['0'], ['1', '0', '0']]⟩ := by
  have h := tag_round_trip ['v'] [['0'], ['1', '0', '0']]
    (by decide) (by decide) (by decide) (by decide)
  rw [h]
  decide

/-- Claim C6: for every node, the any-of tag query with an empty name
list returns the empty collection, and the without-any-of query with an
empty name list returns exactly the node's full list of direct children,
in order. -/
theorem children_tag_queries_empty_list (n : Node) :
    n.get_children_by_tags [] = [] ∧
    n.get_children_without_tags [] = n.children := by
  constructor
  · unfold Node.get_children_by_tags
    simp
  · unfold Node.get_children_without_tags Node.has_tags
    simp

theorem has_tag_iff (ty : FNode) (a : Str) :
    ty.has_tag a = true ↔ ∃ t ∈ ty.tags, t.name = a := by
  simp [FNode.has_tag]

/-- Claim C7: `matches_config` returns true iff the node's kind is in the
kind allow-list whenever that list is non-empty; and, when the node has at
least one tag, no tag name is in the deny-list and, when the grab-list is
non-empty, at least one tag name is in the grab-list; and, when the node
has no tags, the grab-list is empty (so an untagged node passes with an
empty grab-list regardless of the deny-list, and always fails with a
non-empty grab-list). -/
theorem matches_config_spec_iff (cfg : Config) (ty : FNode) :
    matchesConfig cfg ty = true ↔ matchesConfigSpec cfg ty := by
  unfold matchesConfig matchesConfigSpec
  by_cases hk : cfg.allowed_kinds ≠ [] ∧ ty.kind ∉ cfg.allowed_kinds
  · rw [if_pos hk]
    simp only [Bool.false_eq_true, false_iff]
    intro hsp
    exact hk.2 (hsp.1 hk.1)
  · rw [if_neg hk]
    have hkind : cfg.allowed_kinds ≠ [] → ty.kind ∈ cfg.allowed_kinds := by
      intro h1
      by_contra h2
      exact hk ⟨h1, h2⟩
    by_cases ht : ty.tags ≠ []
    · rw [if_pos ht]
      by_cases hav : (cfg.avoid_tag_names.any fun a => ty.has_tag a) = true
      · rw [if_pos hav]
        simp only [Bool.false_eq_true, false_iff]
        intro hsp
        obtain ⟨a, ha, hta⟩ := List.any_eq_true.mp hav
        obtain ⟨t, htm, htn⟩ := (has_tag_iff ty a).mp hta
        exact ((hsp.2.1 ht).1 t htm) (htn ▸ ha)
      · rw [if_neg hav]
        by_cases hg : cfg.grab_tag_names ≠ [] ∧
            (!cfg.grab_tag_names.any fun g => ty.has_tag g) = true
        · rw [if_pos hg]
          simp only [Bool.false_eq_true, false_iff]
          intro hsp
          obtain ⟨t, htm, htg⟩ := (hsp.2.1 ht).2 hg.1
          have : (cfg.grab_tag_names.any fun g => ty.has_tag g) = true := by
            refine List.any_eq_true.mpr ⟨t.name, htg, ?_⟩
            exact (has_tag_iff ty t.name).mpr ⟨t, htm, rfl⟩
          rw [this] at hg
          exact absurd hg.2 (by simp)
        · rw [if_neg hg]
          simp only [true_iff]
          refine ⟨hkind, fun _ => ⟨?_, ?_⟩, fun he => absurd he ht⟩
          · intro t htm hta
            exact hav (List.any_eq_true.mpr
              ⟨t.name, hta, (has_tag_iff ty t.name).mpr ⟨t, htm, rfl⟩⟩)
          · intro hgn
            have hany : (cfg.grab_tag_names.any fun g => ty.has_tag g) = true := by
              by_contra hno
              exact hg ⟨hgn, by simp [Bool.not_eq_true] at hno ⊢; exact hno⟩
            obtain ⟨g, hgm, hgt⟩ := List.any_eq_true.mp hany
            obtain ⟨t, htm, htn⟩ := (has_tag_iff ty g).mp hgt
            exact ⟨t, htm, htn ▸ hgm⟩
    · rw [if_neg ht]
      have hte : ty.tags = [] := not_not.mp ht
      by_cases hg : cfg.grab_tag_names ≠ []
      · rw [if_pos hg]
        simp only [Bool.false_eq_true, false_iff]
        intro hsp
        exact hg (hsp.2.2 hte)
      · rw [if_neg hg]
        simp only [true_iff]
        exact ⟨hkind, fun hne => absurd hte hne, fun _ => not_not.mp hg⟩

theorem add_eq (f : Filter) (t : FNode) :
    f.add (some t) =
      if isValidType f.cfg (some t) = true then
        (if f.contains (some t) = true then (f, false)
         else ({ f with types := f.types ++ [t] }, true))
      else (f, false) := by
  unfold Filter.add
  cases hv : isValidType f.cfg (some t) <;>
    cases hc : f.contains (some t) <;> simp [hv, hc]

/-- Claim C8: whenever `add(x)` returns true, an immediately following
`contains(x)` returns true and `size()` is one more than before; and a
second `add` of any node with the same Usr as `x` returns false and
leaves `size()` unchanged. -/
theorem filter_add_contains_size (f : Filter) (x : FNode)
    (h : (f.add (some x)).2 = true) :
    (f.add (some x)).1.contains (some x) = true ∧
    (f.add (some x)).1.size = f.size + 1 ∧
    ∀ y : FNode, y.usr = x.usr →
      ((f.add (some x)).1.add (some y)).2 = false ∧
      ((f.add (some x)).1.add (some y)).1.size = (f.add (some x)).1.size := by
  cases hv : isValidType f.cfg (some x) with
  | false => rw [add_eq, hv] at h; simp at h
  | true =>
    cases hc : f.contains (some x) with
    | true => rw [add_eq, hv, hc] at h; simp at h
    | false =>
      have hres : f.add (some x) = ({ f with types := f.types ++ [x] }, true) := by
        rw [add_eq, hv, hc]
        simp
      rw [hres]
      have hcx : ({ f with types := f.types ++ [x] } : Filter).contains (some x)
          = true := by
        unfold Filter.contains Filter.memUsr
        simp
      refine ⟨hcx, by simp [Filter.size], ?_⟩
      intro y hy
      have hcy : ({ f with types := f.types ++ [x] } : Filter).contains (some y)
          = true := by
        unfold Filter.contains Filter.memUsr
        simp [hy]
      rw [add_eq, hcy]
      cases hv2 : isValidType ({ f with types := f.types ++ [x] } : Filter).cfg
          (some y) <;> simp [hv2]

/-- Claim C8 witness: on the empty filter with the default configuration,
adding a struct node succeeds and re-adding it is rejected. -/
theorem filter_add_contains_size_witness :
    ((Filter.mk [] {}).add (some ⟨0, Kind.struct_decl, ['u'], []⟩)).1.contains
        (some ⟨0, Kind.struct_decl, ['u'], []⟩) = true ∧
    (((Filter.mk [] {}).add (some ⟨0, Kind.struct_decl, ['u'], []⟩)).1.add
        (some ⟨0, Kind.struct_decl, ['u'], []⟩)).2 = false := by
  have h := filter_add_contains_size (Filter.mk [] {})
    ⟨0, Kind.struct_decl, ['u'], []⟩ (by decide)
  exact ⟨h.1, (h.2.2 ⟨0, Kind.struct_decl, ['u'], []⟩ rfl).1⟩

theorem eraseFirstUsr_append {l : List FNode} {x : FNode} {u : Str}
    (hl : ∀ n ∈ l, n.usr ≠ u) (hx : x.usr = u) :
    eraseFirstUsr (l ++ [x]) u = (l, true) := by
  induction l with
  | nil => simp [eraseFirstUsr, hx]
  | cons n rest ih =>
    have hn : n.usr ≠ u := hl n (by simp)
    rw [List.cons_append]
    unfold eraseFirstUsr
    rw [if_neg hn, ih (fun m hm => hl m (by simp [hm]))]

/-- Claim C10: for two distinct non-null type-declaration nodes `x` and
`y` that both have the empty Usr and both satisfy the configuration,
after `add(x)` succeeds: `add(y)` returns false, `contains(y)` returns
true although `y` was never inserted, and `remove(y)` removes `x`,
restoring the filter that existed before `x` was added — membership is
decided solely by Usr string equality, so all empty-Usr nodes collide. -/
theorem filter_empty_usr_collision (f : Filter) (x y : FNode)
    (hxy : x.id ≠ y.id) (hx : x.usr = []) (hy : y.usr = [])
    (hvy : isValidType f.cfg (some y) = true)
    (h : (f.add (some x)).2 = true) :
    ((f.add (some x)).1.add (some y)).2 = false ∧
    (f.add (some x)).1.contains (some y) = true ∧
    (f.add (some x)).1.remove (some y) = (f, true) := by
  cases hv : isValidType f.cfg (some x) with
  | false => rw [add_eq, hv] at h; simp at h
  | true =>
    cases hc : f.contains (some x) with
    | true => rw [add_eq, hv, hc] at h; simp at h
    | false =>
      have hres : f.add (some x) = ({ f with types := f.types ++ [x] }, true) := by
        rw [add_eq, hv, hc]
        simp
      rw [hres]
      have hnone : ∀ n ∈ f.types, n.usr ≠ x.usr := by
        intro n hn he
        have : f.memUsr x.usr = true :=
          List.any_eq_true.mpr ⟨n, hn, by simp [he]⟩
        rw [show f.contains (some x) = f.memUsr x.usr from rfl, this] at hc
        exact absurd hc (by simp)
      have hcy : ({ f with types := f.types ++ [x] } : Filter).contains (some y)
          = true := by
        unfold Filter.contains Filter.memUsr
        simp [hy, hx]
      refine ⟨?_, hcy, ?_⟩
      · rw [add_eq, hcy]
        cases hv2 : isValidType ({ f with types := f.types ++ [x] } : Filter).cfg
            (some y) <;> simp [hv2]
      · have herase : eraseFirstUsr (f.types ++ [x]) y.usr = (f.types, true) := by
          rw [hy]
          exact eraseFirstUsr_append
            (fun n hn => by rw [← hx]; exact hnone n hn) hx
        show (Filter.mk (eraseFirstUsr (f.types ++ [x]) y.usr).1 f.cfg,
            (eraseFirstUsr (f.types ++ [x]) y.usr).2) = (f, true)
        rw [herase]

/-- Claim C10 witness: two distinct empty-Usr struct nodes on the empty
filter with the default configuration: removing `y` yields back the empty
filter (it removed `x`) and reports success. -/
theorem filter_empty_usr_collision_witness :
    ((Filter.mk [] {}).add (some ⟨0, Kind.struct_decl, [], []⟩)).1.remove
        (some ⟨1, Kind.class_decl, [], []⟩) = (Filter.mk [] {}, true) :=
  (filter_empty_usr_collision (Filter.mk [] {})
    ⟨0, Kind.struct_decl, [], []⟩ ⟨1, Kind.class_decl, [], []⟩
    (by decide) rfl rfl (by decide) (by decide)).2.2

/-!
### Helper lemmas for the merge engine
-/

theorem node_ind (P : Node → Prop)
    (h : ∀ d cs, (∀ c ∈ cs, P c) → P (Node.mk d cs)) : ∀ t, P t := by
  have key : ∀ (n : Nat) (t : Node), sizeOf t ≤ n → P t := by
    intro n
    induction n with
    | zero =>
      intro t ht
      cases t with
      | mk d cs => simp at ht
    | succ n ih =>
      intro t ht
      cases t with
      | mk d cs =>
        refine h d cs fun c hc => ih c ?_
        have h1 := List.sizeOf_lt_of_mem hc
        have h2 : sizeOf (Node.mk d cs) = 1 + sizeOf d + sizeOf cs := by simp
        omega
  intro t
  exact key (sizeOf t) t (le_refl _)

theorem cloneList_eq (cs : List Node) (h : ∀ c ∈ cs, cloneNode c = c) :
    cloneList cs = cs := by
  induction cs with
  | nil => rfl
  | cons c rest ih =>
    rw [show cloneList (c :: rest) = cloneNode c :: cloneList rest from rfl,
      h c (by simp), ih fun x hx => h x (by simp [hx])]

/-- The deep clone of `parser_impl::clone_node` copies every field and
every child, so on the value level it is the identity. -/
theorem cloneNode_id : ∀ t, cloneNode t = t := by
  refine node_ind _ ?_
  intro d cs ih
  calc cloneNode (Node.mk d cs) = Node.mk d (cloneList cs) := rfl
    _ = Node.mk d cs := by rw [cloneList_eq cs ih]

theorem cloneList_id (cs : List Node) : cloneList cs = cs :=
  cloneList_eq cs fun c _ => cloneNode_id c

theorem usrCount_mk (u : Str) (d : NData) (cs : List Node) :
    usrCount u (Node.mk d cs) = (if d.usr = u then 1 else 0) + usrCountL u cs :=
  rfl

theorem usrCountL_cons (u : Str) (c : Node) (cs : List Node) :
    usrCountL u (c :: cs) = usrCount u c + usrCountL u cs := rfl

theorem usrCountL_append (u : Str) :
    ∀ l1 l2 : List Node, usrCountL u (l1 ++ l2) = usrCountL u l1 + usrCountL u l2 := by
  intro l1 l2
  induction l1 with
  | nil => simp [usrCountL]
  | cons c rest ih =>
    rw [List.cons_append, usrCountL_cons, usrCountL_cons, ih]
    omega

theorem usrCountL_children_le (u : Str) (t : Node) :
    usrCountL u t.children ≤ usrCount u t := by
  cases t with
  | mk d cs =>
    rw [usrCount_mk, show (Node.mk d cs).children = cs from rfl]
    omega

theorem usrCountL_eq_zero (u : Str) (l : List Node)
    (h : ∀ c ∈ l, usrCount u c = 0) : usrCountL u l = 0 := by
  induction l with
  | nil => rfl
  | cons c rest ih =>
    rw [usrCountL_cons, h c (by simp), ih fun x hx => h x (by simp [hx])]

theorem merge_children (a b : Node) :
    (merge a b).children = a.children ++ b.children.filter (keepB a) := by
  unfold merge
  rw [show (Node.mk { defaultNData Kind.translation_unit with name := mergedName }
        (cloneList a.children ++ cloneList (b.children.filter (keepB a)))).children
      = cloneList a.children ++ cloneList (b.children.filter (keepB a)) from rfl]
  rw [cloneList_id, cloneList_id]

/-- Counting nodes per Usr in a merged tree: the fresh root (empty Usr),
plus the full subtrees of `a`'s direct children, plus the full subtrees of
the `b`-children kept by `keepB`. -/
theorem merge_usrCount (a b : Node) (u : Str) :
    usrCount u (merge a b) =
      (if u = [] then 1 else 0) + usrCountL u a.children +
        usrCountL u (b.children.filter (keepB a)) := by
  unfold merge
  rw [usrCount_mk, cloneList_id, cloneList_id, usrCountL_append]
  have husr : ({ defaultNData Kind.translation_unit with name := mergedName } :
      NData).usr = [] := rfl
  rw [husr]
  by_cases hu : u = []
  · rw [hu, if_pos rfl]
    omega
  · rw [if_neg fun h => hu h.symm, if_neg hu]
    omega

theorem mem_usrsOfL : ∀ (cs : List Node) (c : Node), c ∈ cs →
    c.data.usr ≠ [] → c.data.usr ∈ usrsOfL cs := by
  intro cs
  induction cs with
  | nil => intro c hc; simp at hc
  | cons d rest ih =>
    intro c hc hne
    rw [show usrsOfL (d :: rest) = usrsOf d ++ usrsOfL rest from rfl]
    rcases List.mem_cons.mp hc with he | hm
    · subst he
      cases c with
      | mk dc csc =>
        have hne' : dc.usr ≠ [] := hne
        rw [show usrsOf (Node.mk dc csc) =
              (if dc.usr = [] then [] else [dc.usr]) ++ usrsOfL csc from rfl]
        rw [if_neg hne']
        show dc.usr ∈ ([dc.usr] ++ usrsOfL csc) ++ usrsOfL rest
        simp
    · exact List.mem_append.mpr (Or.inr (ih c hm hne))

theorem usr_mem_usrsOf {t c : Node} (hc : c ∈ t.children)
    (hne : c.data.usr ≠ []) : c.data.usr ∈ usrsOf t := by
  cases t with
  | mk d cs =>
    rw [show usrsOf (Node.mk d cs) =
          (if d.usr = [] then [] else [d.usr]) ++ usrsOfL cs from rfl]
    exact List.mem_append.mpr (Or.inr (mem_usrsOfL cs c hc hne))

theorem keepB_self (t : Node) : ∀ c ∈ t.children,
    keepB t c = decide (c.data.usr = []) := by
  intro c hc
  unfold keepB
  by_cases he : c.data.usr = []
  · simp [he]
  · rw [if_neg he, if_pos (usr_mem_usrsOf hc he)]
    simp [he]

/-- Claim C1 counterexample: `treeA` with two direct children sharing the
non-empty Usr `"X"` and an empty `treeB` are both non-null, yet the merged
tree contains two nodes with Usr `"X"` — the merge never deduplicates
within `treeA`. -/
theorem merge_duplicate_usr_counterexample :
    usrCount ['X']
      (merge
        (Node.mk {} [Node.mk { usr := ['X'] } [], Node.mk { usr := ['X'] } []])
        (Node.mk {} [])) = 2 := by
  decide

/-- Claim C1 (amended): the merged tree contains at most one node per
non-empty Usr provided `treeA` itself contains at most one node per
non-empty Usr, the copied `treeB` subtrees collectively contain each
non-empty Usr at most once, and no non-empty Usr inside a copied `treeB`
subtree occurs inside a direct-child subtree of `treeA`; unconditionally,
nodes with empty Usr are never deduplicated: the merged children are
exactly `treeA`'s children followed by the kept `treeB` children, and
every empty-Usr direct child of `treeB` is kept. -/
theorem merge_usr_dedup (a b : Node)
    (hA : ∀ u : Str, u ≠ [] → usrCount u a ≤ 1)
    (hB : ∀ u : Str, u ≠ [] → usrCountL u (b.children.filter (keepB a)) ≤ 1)
    (hAB : ∀ u : Str, u ≠ [] → 0 < usrCountL u (b.children.filter (keepB a)) →
      usrCountL u a.children = 0) :
    (∀ u : Str, u ≠ [] → usrCount u (merge a b) ≤ 1) ∧
    (merge a b).children = a.children ++ b.children.filter (keepB a) ∧
    ∀ c ∈ b.children, c.data.usr = [] → c ∈ b.children.filter (keepB a) := by
  refine ⟨?_, merge_children a b, ?_⟩
  · intro u hu
    rw [merge_usrCount, if_neg hu]
    by_cases hpos : 0 < usrCountL u (b.children.filter (keepB a))
    · have := hAB u hu hpos
      have := hB u hu
      omega
    · have h1 : usrCountL u a.children ≤ usrCount u a := usrCountL_children_le u a
      have := hA u hu
      omega
  · intro c hc he
    refine List.mem_filter.mpr ⟨hc, ?_⟩
    unfold keepB
    rw [if_pos he]

/-- Claim C1 witness: a concrete instance of the amended merge guarantee,
`treeA` holding one `"X"` declaration and `treeB` empty. -/
theorem merge_usr_dedup_witness :
    (merge (Node.mk {} [Node.mk { usr := ['X'] } []]) (Node.mk {} [])).children =
      (Node.mk {} [Node.mk { usr := ['X'] } []]).children ++
        (Node.mk {} []).children.filter
          (keepB (Node.mk {} [Node.mk { usr := ['X'] } []])) := by
  have h := merge_usr_dedup (Node.mk {} [Node.mk { usr := ['X'] } []])
    (Node.mk {} [])
    (by
      intro u hu
      rw [show usrCount u (Node.mk {} [Node.mk { usr := ['X'] } []]) =
            (if ([] : Str) = u then 1 else 0) +
              ((if ['X'] = u then 1 else 0) + 0) from rfl]
      rw [if_neg fun h => hu h.symm]
      split <;> omega)
    (by intro u hu; rw [show usrCountL u
          ((Node.mk {} []).children.filter
            (keepB (Node.mk {} [Node.mk { usr := ['X'] } []]))) = 0 from rfl]; omega)
    (by intro u hu h0; rw [show usrCountL u
          ((Node.mk {} []).children.filter
            (keepB (Node.mk {} [Node.mk { usr := ['X'] } []]))) = 0 from rfl] at h0
        omega)
  exact h.2.1

/-- Claim C3 counterexample: for the single-node tree `t` whose root
carries Usr `"X"`, the Usr `"X"` is present in `t`, yet `merge(t, t)`
contains zero nodes with it — the root of an input tree is never copied,
only its direct children are. -/
theorem merge_self_counterexample :
    usrCount ['X'] (Node.mk { usr := ['X'] } []) = 1 ∧
    usrCount ['X']
      (merge (Node.mk { usr := ['X'] } []) (Node.mk { usr := ['X'] } [])) = 0 := by
  decide

/-- Claim C3 (amended): provided `t` holds each non-empty Usr at most once
and no empty-Usr direct child of `t` contains a named node, `merge(t, t)`
contains exactly one node per non-empty Usr occurring in the subtrees of
`t`'s direct children (the root's own Usr is not copied); and the
empty-Usr node count of the result is one (the fresh root) plus the count
over `t`'s children plus, a second time, the count over the empty-Usr
direct children — exactly those are copied from both sides. -/
theorem merge_self_usr_counts (t : Node)
    (h1 : ∀ u : Str, u ≠ [] → usrCount u t ≤ 1)
    (h2 : ∀ c ∈ t.children, c.data.usr = [] →
      ∀ u : Str, u ≠ [] → usrCount u c = 0) :
    (∀ u : Str, u ≠ [] → 0 < usrCountL u t.children →
      usrCount u (merge t t) = 1) ∧
    usrCount [] (merge t t) =
      1 + usrCountL [] t.children +
        usrCountL [] (t.children.filter fun c => decide (c.data.usr = [])) := by
  have hfil : t.children.filter (keepB t) =
      t.children.filter fun c => decide (c.data.usr = []) :=
    List.filter_congr (keepB_self t)
  constructor
  · intro u hu hpos
    rw [merge_usrCount, if_neg hu, hfil]
    have hone : usrCountL u t.children = 1 := by
      have hle : usrCountL u t.children ≤ usrCount u t := usrCountL_children_le u t
      have := h1 u hu
      omega
    have hzero : usrCountL u
        (t.children.filter fun c => decide (c.data.usr = [])) = 0 := by
      refine usrCountL_eq_zero u _ fun c hc => ?_
      have hm := List.mem_filter.mp hc
      exact h2 c hm.1 (by simpa using hm.2) u hu
    omega
  · rw [merge_usrCount, if_pos rfl, hfil]

/-- Claim C3 witness: the amended count equations at a concrete tree with
one named child and one anonymous child. -/
theorem merge_self_usr_counts_witness :
    usrCount []
      (merge (Node.mk {} [Node.mk { usr := ['X'] } []])
        (Node.mk {} [Node.mk { usr := ['X'] } []])) =
      1 + usrCountL [] (Node.mk {} [Node.mk { usr := ['X'] } []]).children +
        usrCountL []
          ((Node.mk {} [Node.mk { usr := ['X'] } []]).children.filter
            fun c => decide (c.data.usr = [])) := by
  have h := merge_self_usr_counts (Node.mk {} [Node.mk { usr := ['X'] } []])
    (by
      intro u hu
      rw [show usrCount u (Node.mk {} [Node.mk { usr := ['X'] } []]) =
            (if ([] : Str) = u then 1 else 0) +
              ((if ['X'] = u then 1 else 0) + 0) from rfl]
      rw [if_neg fun h => hu h.symm]
      split <;> omega)
    (by
      intro c hc he u hu
      have hc' : c ∈ [Node.mk { usr := ['X'] } []] := hc
      have hceq : c = Node.mk { usr := ['X'] } [] := by simpa using hc'
      rw [hceq] at he
      exact absurd (show (['X'] : Str) = [] from he) (by decide))
  exact h.2

/-!
### Helper lemmas for the tree-mutation model
-/

theorem occ_cons (n : HNode) (t : Store) (i : Nat) :
    occ (n :: t) i = n.children.count i + occ t i := rfl

theorem occ_set_same : ∀ (s : Store) (j : Nat) (new : HNode) (i : Nat),
    (∀ old, s[j]? = some old → new.children = old.children) →
    occ (s.set j new) i = occ s i := by
  intro s
  induction s with
  | nil => intro j new i _; rfl
  | cons n t ih =>
    intro j new i h
    cases j with
    | zero =>
      rw [List.set_cons_zero, occ_cons, occ_cons,
        h n (by rw [List.getElem?_cons_zero])]
    | succ j =>
      rw [List.set_cons_succ, occ_cons, occ_cons,
        ih j new i fun old ho => h old (by rw [List.getElem?_cons_succ]; exact ho)]

theorem occ_set_append : ∀ (s : Store) (j : Nat) (pn : HNode) (c i : Nat),
    s[j]? = some pn →
    occ (s.set j { pn with children := pn.children ++ [c] }) i =
      occ s i + List.count i [c] := by
  intro s
  induction s with
  | nil => intro j pn c i h; simp at h
  | cons n t ih =>
    intro j pn c i h
    cases j with
    | zero =>
      have hn : n = pn := by
        rw [List.getElem?_cons_zero] at h
        exact Option.some.inj h
      subst hn
      rw [List.set_cons_zero, occ_cons, occ_cons, List.count_append]
      omega
    | succ j =>
      rw [List.getElem?_cons_succ] at h
      rw [List.set_cons_succ, occ_cons, occ_cons, ih j pn c i h]
      omega

theorem count_eraseFirst_le : ∀ (l : List Nat) (c i : Nat),
    List.count i (eraseFirst l c) ≤ List.count i l := by
  intro l c i
  induction l with
  | nil => exact Nat.le_refl _
  | cons y ys ih =>
    unfold eraseFirst
    by_cases hy : y = c
    · rw [if_pos hy, List.count_cons]
      omega
    · rw [if_neg hy, List.count_cons, List.count_cons]
      omega

theorem occ_set_erase : ∀ (s : Store) (j : Nat) (pn : HNode) (c i : Nat),
    s[j]? = some pn →
    occ (s.set j { pn with children := eraseFirst pn.children c }) i ≤ occ s i := by
  intro s
  induction s with
  | nil => intro j pn c i h; simp at h
  | cons n t ih =>
    intro j pn c i h
    cases j with
    | zero =>
      have hn : n = pn := by
        rw [List.getElem?_cons_zero] at h
        exact Option.some.inj h
      subst hn
      rw [List.set_cons_zero, occ_cons, occ_cons,
        show ({ n with children := eraseFirst n.children c } : HNode).children
          = eraseFirst n.children c from rfl]
      have := count_eraseFirst_le n.children c i
      omega
    | succ j =>
      rw [List.getElem?_cons_succ] at h
      rw [List.set_cons_succ, occ_cons, occ_cons]
      have := ih j pn c i h
      omega

theorem setParent_none {s : Store} {cid : Nat} (pv : Option Nat)
    (h : s[cid]? = none) : setParent s cid pv = s := by
  unfold setParent
  rw [h]

theorem setParent_some {s : Store} {cid : Nat} {cn : HNode} (pv : Option Nat)
    (h : s[cid]? = some cn) :
    setParent s cid pv = s.set cid { cn with parent := pv } := by
  unfold setParent
  rw [h]

theorem appendChild_none {s : Store} {p : Nat} (cid : Nat)
    (h : s[p]? = none) : appendChild s p cid = s := by
  unfold appendChild
  rw [h]

theorem appendChild_some {s : Store} {p : Nat} {pn : HNode} (cid : Nat)
    (h : s[p]? = some pn) :
    appendChild s p cid = s.set p { pn with children := pn.children ++ [cid] } := by
  unfold appendChild
  rw [h]

theorem eraseChild_some {s : Store} {p : Nat} {pn : HNode} (cid : Nat)
    (h : s[p]? = some pn) :
    eraseChild s p cid =
      s.set p { pn with children := eraseFirst pn.children cid } := by
  unfold eraseChild
  rw [h]

theorem occ_setParent (s : Store) (cid : Nat) (pv : Option Nat) (i : Nat) :
    occ (setParent s cid pv) i = occ s i := by
  cases h : s[cid]? with
  | none => rw [setParent_none pv h]
  | some cn =>
    rw [setParent_some pv h]
    exact occ_set_same s cid _ i fun old ho => by
      rw [h] at ho
      rw [Option.some.inj ho]

theorem occ_appendChild_le (s : Store) (p cid i : Nat) :
    occ (appendChild s p cid) i ≤ occ s i + List.count i [cid] := by
  cases h : s[p]? with
  | none =>
    rw [appendChild_none cid h]
    omega
  | some pn =>
    rw [appendChild_some cid h]
    exact Nat.le_of_eq (occ_set_append s p pn cid i h)

theorem occ_eraseChild_le (s : Store) (p cid i : Nat) :
    occ (eraseChild s p cid) i ≤ occ s i := by
  cases h : s[p]? with
  | none => unfold eraseChild; rw [h]
  | some pn =>
    rw [eraseChild_some cid h]
    exact occ_set_erase s p pn cid i h

theorem occ_addChild_le (s : Store) (p cid i : Nat) :
    occ (addChild s p (some cid)) i ≤ occ s i + List.count i [cid] := by
  rw [show addChild s p (some cid) =
        appendChild (setParent s cid (some p)) p cid from rfl]
  calc occ (appendChild (setParent s cid (some p)) p cid) i
      ≤ occ (setParent s cid (some p)) i + List.count i [cid] :=
        occ_appendChild_le _ p cid i
    _ = occ s i + List.count i [cid] := by rw [occ_setParent]

theorem removeChild_body (s : Store) (p cid : Nat) :
    removeChild s p (some cid) =
      (match s[p]? with
       | none => s
       | some pn =>
         if cid ∈ pn.children then eraseChild (setParent s cid none) p cid
         else s) := rfl

theorem occ_removeChild_le (s : Store) (p : Nat) (c : Option Nat) (i : Nat) :
    occ (removeChild s p c) i ≤ occ s i := by
  cases c with
  | none => exact Nat.le_refl _
  | some cid =>
    rw [removeChild_body]
    cases h : s[p]? with
    | none => exact Nat.le_refl _
    | some pn =>
      simp only
      by_cases hm : cid ∈ pn.children
      · rw [if_pos hm]
        calc occ (eraseChild (setParent s cid none) p cid) i
            ≤ occ (setParent s cid none) i := occ_eraseChild_le _ p cid i
          _ = occ s i := occ_setParent s cid none i
      · rw [if_neg hm]

/-- Claim C9 counterexample: on a store of three factory-created nodes,
the sequence `add_child(n0, n2); add_child(n1, n2)` leaves node 2 in the
children lists of both node 0 and node 1 — `add_child` does not detach a
child from its previous parent, so "at most one parent at a time" fails
for this sequence. -/
theorem add_child_two_parents_counterexample :
    occ (applyOps [{}, {}, {}] [Op.add 0 (some 2), Op.add 1 (some 2)]) 2 = 2 := by
  decide

/-- Claim C9 (amended): restricted to sequences in which every attached
child is, at the moment of its `add_child`, in no children list (as
factory-fresh nodes and previously removed nodes are), every node occurs
in the children lists of all parents at most once in total; moreover
`add_child` appends the child to the receiver's children and sets the
child's parent back-reference, `add_child` with the null handle is a
no-op, and `remove_child` erases the first occurrence by identity and
clears the child's parent back-reference. -/
theorem add_remove_child_invariant :
    (∀ (s : Store) (ops : List Op), (∀ i, occ s i ≤ 1) →
      validSeq s ops = true → ∀ i, occ (applyOps s ops) i ≤ 1) ∧
    (∀ (s : Store) (p : Nat), addChild s p none = s) ∧
    (∀ (s : Store) (p cid : Nat) (pn cn : HNode), p ≠ cid →
      s[p]? = some pn → s[cid]? = some cn →
      (addChild s p (some cid))[p]? =
        some { pn with children := pn.children ++ [cid] } ∧
      (addChild s p (some cid))[cid]? = some { cn with parent := some p }) ∧
    (∀ (s : Store) (p cid : Nat) (pn cn : HNode), p ≠ cid →
      s[p]? = some pn → s[cid]? = some cn → cid ∈ pn.children →
      (removeChild s p (some cid))[p]? =
        some { pn with children := eraseFirst pn.children cid } ∧
      (removeChild s p (some cid))[cid]? = some { cn with parent := none }) := by
  refine ⟨?_, fun s p => rfl, ?_, ?_⟩
  · intro s ops
    induction ops generalizing s with
    | nil => intro hinv _ i; exact hinv i
    | cons op rest ih =>
      intro hinv hval i
      rw [show applyOps s (op :: rest) = applyOps (applyOp s op) rest from rfl]
      unfold validSeq at hval
      rw [Bool.and_eq_true] at hval
      refine ih (applyOp s op) ?_ hval.2 i
      intro j
      cases op with
      | add p c =>
        cases c with
        | none => exact hinv j
        | some cid =>
          have hc0 : occ s cid = 0 := of_decide_eq_true hval.1
          have hle := occ_addChild_le s p cid j
          show occ (addChild s p (some cid)) j ≤ 1
          by_cases hj : j = cid
          · subst hj
            have h1 : List.count j [j] = 1 := by simp
            rw [h1] at hle
            omega
          · have h0 : List.count j [cid] = 0 := by
              simp [List.count_singleton, Ne.symm hj]
            rw [h0] at hle
            have := hinv j
            omega
      | rem p c => exact Nat.le_trans (occ_removeChild_le s p c j) (hinv j)
  · intro s p cid pn cn hne hp hcid
    have hlcid : cid < s.length := (List.getElem?_eq_some.mp hcid).1
    have hlp : p < s.length := (List.getElem?_eq_some.mp hp).1
    have hs1p : (s.set cid { cn with parent := some p })[p]? = some pn := by
      rw [List.getElem?_set, if_neg fun h => hne h.symm]
      exact hp
    have hstep : addChild s p (some cid) =
        (s.set cid { cn with parent := some p }).set p
          { pn with children := pn.children ++ [cid] } := by
      rw [show addChild s p (some cid) =
            appendChild (setParent s cid (some p)) p cid from rfl,
        setParent_some (some p) hcid, appendChild_some cid hs1p]
    rw [hstep]
    constructor
    · rw [List.getElem?_set, if_pos rfl,
        if_pos (by rw [List.length_set]; exact hlp)]
    · rw [List.getElem?_set, if_neg hne, List.getElem?_set, if_pos rfl,
        if_pos hlcid]
  · intro s p cid pn cn hne hp hcid hm
    have hlcid : cid < s.length := (List.getElem?_eq_some.mp hcid).1
    have hlp : p < s.length := (List.getElem?_eq_some.mp hp).1
    have hs1p : (s.set cid { cn with parent := none })[p]? = some pn := by
      rw [List.getElem?_set, if_neg fun h => hne h.symm]
      exact hp
    have hstep : removeChild s p (some cid) =
        (s.set cid { cn with parent := none }).set p
          { pn with children := eraseFirst pn.children cid } := by
      rw [removeChild_body, hp]
      show (if cid ∈ pn.children then eraseChild (setParent s cid none) p cid
            else s) = _
      rw [if_pos hm, setParent_some none hcid, eraseChild_some cid hs1p]
    rw [hstep]
    constructor
    · rw [List.getElem?_set, if_pos rfl,
        if_pos (by rw [List.length_set]; exact hlp)]
    · rw [List.getElem?_set, if_neg hne, List.getElem?_set, if_pos rfl,
        if_pos hlcid]

/-- Claim C9 witness: two factory-fresh nodes; attaching node 1 under
node 0, detaching it, and attaching it again keeps it under at most one
parent. -/
theorem add_remove_child_invariant_witness :
    occ (applyOps [{}, {}]
      [Op.add 0 (some 1), Op.rem 0 (some 1), Op.add 0 (some 1)]) 1 ≤ 1 :=
  (add_remove_child_invariant.1 [{}, {}]
    [Op.add 0 (some 1), Op.rem 0 (some 1), Op.add 0 (some 1)]
    (fun i => by rw [show occ [{}, {}] i = 0 from rfl]; omega)
    (by decide)) 1

end XccMeta
